import Mathlib

/-!
Verification of the feedforward neural-network engine
(`src/network/network.rs` of kolmogorov-arnold-networks-rust).

`Network` is translated from `src/network/network.rs`.  The numeric
containers `Vector`/`Matrix` and the `Layer` type are not part of the
provided sources (only `network.rs` is), so they are modelled from the
specification (§3, §4.1, §4.2).  Scalars are modelled as `ℚ` (the source
uses `f32`; the claims below are structural, not about rounding).
Operations that panic in Rust (shape mismatches, out-of-range indexing,
`unwrap`) are modelled as `Option`-returning functions where a panic is
`none`.
-/

namespace KAN

/-- Modelled from the spec: the fixed sigmoid-like activation nonlinearity
(§4.2 "sigmoid/logistic").  The exact logistic function is transcendental,
so it is modelled by a rational sigmoid-shaped surrogate mapping into
(0, 1).  No claim below depends on its specific values. -/
def activation (x : ℚ) : ℚ := 1 / 2 + x / (2 * (1 + |x|))

/-- Modelled from the spec: `Vector` (§3), a 1-D dense array of scalars. -/
structure Vector where
  elements : List ℚ
deriving DecidableEq

/-- Modelled from the spec: `Matrix` (§3), a row-major dense 2-D array;
`data` is the list of rows. -/
structure Matrix where
  data : List (List ℚ)
deriving DecidableEq

/-- Modelled from the spec: `Layer` (§3, §4.2), one dense transform owning
a weight `Matrix` and a bias `Vector` (the activation is the fixed global
`activation`). -/
structure Layer where
  weights : Matrix
  biases : Vector
deriving DecidableEq

/-- Translated from `src/network/network.rs`: `pub struct Network`. -/
structure Network where
  layers : List Layer
deriving DecidableEq

def Vector.len (v : Vector) : Nat := v.elements.length

/-- Modelled from the spec (§4.1): `zeros(n)`. -/
def Vector.zeros (n : Nat) : Vector := ⟨List.replicate n 0⟩

/-- Modelled from the spec (§4.1): `ones(n)`. -/
def Vector.ones (n : Nat) : Vector := ⟨List.replicate n 1⟩

/-- Modelled from the spec (§4.1): elementwise addition, failing on a
length mismatch. -/
def Vector.add (v w : Vector) : Option Vector :=
  if v.elements.length = w.elements.length then
    some ⟨List.zipWith (fun a b => a + b) v.elements w.elements⟩
  else none

/-- Modelled from the spec (§4.1): elementwise subtraction, failing on a
length mismatch. -/
def Vector.subtract (v w : Vector) : Option Vector :=
  if v.elements.length = w.elements.length then
    some ⟨List.zipWith (fun a b => a - b) v.elements w.elements⟩
  else none

/-- Modelled from the spec (§4.1): elementwise product, failing on a
length mismatch. -/
def Vector.elementwise_multiply (v w : Vector) : Option Vector :=
  if v.elements.length = w.elements.length then
    some ⟨List.zipWith (fun a b => a * b) v.elements w.elements⟩
  else none

/-- Modelled from the spec (§4.1): `scalar_multiply(k)`, always succeeds. -/
def Vector.scalar_multiply (v : Vector) (k : ℚ) : Vector :=
  ⟨v.elements.map (fun a => a * k)⟩

/-- Modelled from the spec (§4.1): `magnitude()`, "sum of squares or its
root"; the sum of squares is fixed here (a square root does not exist on
ℚ, and no claim depends on which of the two is chosen). -/
def Vector.magnitude (v : Vector) : ℚ :=
  (v.elements.map (fun a => a * a)).sum

/-- Modelled from the spec (§4.1): bounds-checked element read. -/
def Vector.get_element (v : Vector) (i : Nat) : Option ℚ := v.elements.get? i

def Matrix.row_count (m : Matrix) : Nat := m.data.length

def Matrix.col_count (m : Matrix) : Nat := (m.data.headD []).length

/-- The (i, j) scalar of a matrix, with 0 outside the stored data
(a convenience accessor used to state theorems). -/
def Matrix.entry (m : Matrix) (i j : Nat) : ℚ := (m.data.getD i []).getD j 0

/-- Modelled from the spec (§4.1): an r-by-c all-zero matrix. -/
def Matrix.zeros (r c : Nat) : Matrix := ⟨List.replicate r (List.replicate c 0)⟩

/-- Modelled from the spec (§4.1): elementwise addition, failing unless
the dimensions are identical. -/
def Matrix.add (m n : Matrix) : Option Matrix :=
  if m.data.map List.length = n.data.map List.length then
    some ⟨List.zipWith (fun r s => List.zipWith (fun a b => a + b) r s) m.data n.data⟩
  else none

/-- Modelled from the spec (§4.1): `scalar_multiply(k)`, dimension
preserving, always succeeds. -/
def Matrix.scalar_multiply (m : Matrix) (k : ℚ) : Matrix :=
  ⟨m.data.map (fun r => r.map (fun a => a * k))⟩

/-- Modelled from the spec (§4.1): bounds-checked element read. -/
def Matrix.get_element (m : Matrix) (r c : Nat) : Option ℚ :=
  (m.data.get? r).bind (fun row => row.get? c)

/-- Modelled from the spec (§4.1): bounds-checked element write. -/
def Matrix.set_element (m : Matrix) (r c : Nat) (v : ℚ) : Option Matrix :=
  if r < m.row_count ∧ c < m.col_count then
    some ⟨m.data.set r ((m.data.getD r []).set c v)⟩
  else none

/-- Dot product of two scalar lists (the inner sum of a matrix-vector
product). -/
def dot (a b : List ℚ) : ℚ := (List.zipWith (fun x y => x * y) a b).sum

/-- Modelled from the spec (§4.2): `Layer::forward`, computing
`activation(weights · input + biases)`; fails if the input length does
not match the layer's input width. -/
def Layer.forward (l : Layer) (input : Vector) : Option Vector :=
  if input.len = l.weights.col_count then
    (Vector.add ⟨l.weights.data.map (fun row => dot row input.elements)⟩ l.biases).map
      (fun s => ⟨s.elements.map activation⟩)
  else none

/-- Modelled from the spec (§4.2): `Layer::delta`, the delta propagated
to the upstream layer: `(weightsᵗ · delta_here)` elementwise-multiplied
by the upstream activation derivative `gradient`. -/
def Layer.delta (l : Layer) (d g : Vector) : Option Vector :=
  if d.len = l.weights.row_count then
    Vector.elementwise_multiply
      ⟨(List.range l.weights.col_count).map
        (fun i => dot (l.weights.data.map (fun row => row.getD i 0)) d.elements)⟩ g
  else none

/-- Modelled from the spec (§4.2): `Layer::weight_gradients`, the
weight-gradient matrix as the outer product of the layer's input and its
delta, laid out as in `Network::weight_gradients` (first index below the
weight column count, second below the row count); out-of-range reads of
`input`/`delta` panic. -/
def Layer.weight_gradients (l : Layer) (input output delta : Vector) : Option Matrix :=
  if l.weights.col_count ≤ input.len ∧ l.weights.row_count ≤ delta.len then
    some ⟨(List.range l.weights.col_count).map
      (fun i => (List.range l.weights.row_count).map
        (fun j => input.elements.getD i 0 * delta.elements.getD j 0))⟩
  else none

/-- Translated from `src/network/network.rs` line 15: `Network::new`. -/
def Network.new (layers : List Layer) : Network := ⟨layers⟩

/-- Translated from `src/network/network.rs` lines 19-25:
`Network::forward` applies each layer in order to the running output. -/
def Network.forward (net : Network) (input : Vector) : Option Vector :=
  net.layers.foldlM (fun out layer => layer.forward out) input

/-- Translated from `src/network/network.rs` lines 114-121:
`Network::predict`, the same sequential loop as `forward`. -/
def Network.predict (net : Network) (input : Vector) : Option Vector :=
  net.layers.foldlM (fun out layer => layer.forward out) input

/-- Translated from `src/network/network.rs` lines 304-306:
`Network::delta(error, gradient) = error ⊙ gradient`. -/
def Network.delta (net : Network) (error gradient : Vector) : Option Vector :=
  error.elementwise_multiply gradient

/-- Translated from `src/network/network.rs` lines 316-326:
`Network::weight_gradients` builds a zero matrix sized from the last
layer's weight dimensions (transposed) and overwrites entry (i, j) with
`input[i] * gradient[j]` for every i below the column count and j below
the row count (`layers.last().unwrap()` panics on an empty network, and
the element reads/writes panic out of range).  The `output` argument is
unused, as in the source. -/
def Network.weight_gradients (net : Network) (input output gradient : Vector) :
    Option Matrix :=
  match net.layers.getLast? with
  | none => none
  | some last =>
    (List.range last.weights.col_count).foldlM
      (fun m i =>
        (List.range last.weights.row_count).foldlM
          (fun m2 j => do
            let a ← input.get_element i
            let b ← gradient.get_element j
            m2.set_element i j (a * b)) m)
      (Matrix.zeros last.weights.col_count last.weights.row_count)

/-- Translated from `src/network/network.rs` lines 28-36: the forward
pass of `Network::backward` that records `outputs = [input, out₁, …]`,
one entry per layer plus the original input. -/
def forwardOutputs (layers : List Layer) (input : Vector) : Option (List Vector) :=
  match layers with
  | [] => some [input]
  | l :: ls => do
    let out ← l.forward input
    let rest ← forwardOutputs ls out
    pure (input :: rest)

/-- Translated from `src/network/network.rs` lines 38-43: the output
stage of `Network::backward` — the recorded outputs, the output error
`output - target`, and the output delta
`error ⊙ (output ⊙ (output - ones))`. -/
def Network.outputStage (net : Network) (input target : Vector) :
    Option (List Vector × Vector × Vector) := do
  let outputs ← forwardOutputs net.layers input
  let output := outputs.getLastD input
  let error ← output.subtract target
  let g1 ← output.subtract (Vector.ones output.len)
  let gradient ← output.elementwise_multiply g1
  let delta ← net.delta error gradient
  pure (outputs, error, delta)

/-- Translated from `src/network/network.rs` lines 50-60: the reverse
loop `for i in (1..layers.len()).rev()`, producing the pushed
`(weight_gradient, delta)` pairs in push order.  The argument `i` is the
current loop index (the loop stops before index 0). -/
def backSteps (layers : List Layer) (outputs : List Vector) :
    Nat → Vector → Option (List (Matrix × Vector))
  | 0, _ => some []
  | i + 1, prevDelta => do
    let layer ← layers.get? (i + 1)
    let output ← outputs.get? (i + 1)
    let inp ← outputs.get? i
    let g1 ← output.subtract (Vector.ones output.len)
    let gradient ← output.elementwise_multiply g1
    let nd ← layer.delta prevDelta gradient
    let wg ← layer.weight_gradients inp output nd
    let rest ← backSteps layers outputs i nd
    pure ((wg, nd) :: rest)

/-- Translated from `src/network/network.rs` lines 28-60: everything
`Network::backward` pushes onto its `deltas` and `weight_gradients`
vectors, in push order.  `outputs[outputs.len() - 2]` underflows (and
panics) when the layer list is empty, hence the length guard. -/
def Network.backwardParts (net : Network) (input target : Vector) :
    Option (List Vector × List Matrix) := do
  let t ← net.outputStage input target
  let outputs := t.1
  let delta0 := t.2.2
  let output := outputs.getLastD input
  let penultOpt : Option Vector :=
    if 2 ≤ outputs.length then outputs.get? (outputs.length - 2) else none
  let penult ← penultOpt
  let wg0 ← net.weight_gradients penult output delta0
  let steps ← backSteps net.layers outputs (net.layers.length - 1) delta0
  pure (delta0 :: steps.map Prod.snd, wg0 :: steps.map Prod.fst)

/-- Translated from `src/network/network.rs` lines 27-74:
`Network::backward` — the pushed per-layer pairs, then the two summation
loops over `Matrix::add` (whose `unwrap` panics on a dimension mismatch)
and `Vector::add`, started from zero containers sized from the first
layer's weight matrix. -/
def Network.backward (net : Network) (input target : Vector) :
    Option (Matrix × Vector) := do
  let p ← net.backwardParts input target
  let deltas := p.1
  let wgs := p.2
  let l0 ← net.layers.get? 0
  let totalW ← wgs.foldlM (fun acc g => acc.add g)
    (Matrix.zeros l0.weights.col_count l0.weights.row_count)
  let totalD ← deltas.foldlM (fun acc v => acc.add v)
    (Vector.zeros l0.weights.row_count)
  pure (totalW, totalD)

/-- Translated from `src/network/network.rs` lines 76-79:
`Network::update` replaces the first layer's weights by
`weight_gradients * learning_rate + weights` (note the addition) and its
biases by `delta * learning_rate + biases`; `layers[0]` panics on an
empty network and the `Matrix::add` unwrap panics on a dimension
mismatch. -/
def Network.update (net : Network) (weight_gradients : Matrix) (delta : Vector)
    (learning_rate : ℚ) : Option Network := do
  let l0 ← net.layers.get? 0
  let newW ← (weight_gradients.scalar_multiply learning_rate).add l0.weights
  let newB ← (delta.scalar_multiply learning_rate).add l0.biases
  pure ⟨net.layers.set 0 ⟨newW, newB⟩⟩

/-- Translated from `src/network/network.rs` lines 123-129:
`Network::loss` is the magnitude of `forward(input) - target`. -/
def Network.loss (net : Network) (input target : Vector) : Option ℚ := do
  let output ← net.forward input
  let error ← output.subtract target
  pure error.magnitude

/-- Translated from `src/network/network.rs` lines 131-136:
`Network::accuracy` is the number of components of
`forward(input) - target` with absolute value below 0.5, divided by
`target.len()`. -/
def Network.accuracy (net : Network) (input target : Vector) : Option ℚ := do
  let output ← net.forward input
  let error ← output.subtract target
  pure (((error.elements.countP (fun x => decide (|x| < 1 / 2))) : ℚ) / (target.len : ℚ))

/-- Translated from `src/network/network.rs` lines 193-196:
`Network::loss_batch`, the mean of the per-pair losses over
`inputs.zip(targets)`. -/
def Network.loss_batch (net : Network) (inputs targets : List Vector) : Option ℚ := do
  let ls ← (inputs.zip targets).mapM (fun p => net.loss p.1 p.2)
  pure (ls.sum / (inputs.length : ℚ))

/-- Translated from `src/network/network.rs` lines 198-201:
`Network::accuracy_batch`, the mean of the per-pair accuracies. -/
def Network.accuracy_batch (net : Network) (inputs targets : List Vector) : Option ℚ := do
  let as_ ← (inputs.zip targets).mapM (fun p => net.accuracy p.1 p.2)
  pure (as_.sum / (inputs.length : ℚ))

/-- Translated from `src/network/network.rs` lines 203-205:
`Network::evaluate_batch = (loss_batch, accuracy_batch)`. -/
def Network.evaluate_batch (net : Network) (inputs targets : List Vector) :
    Option (ℚ × ℚ) := do
  let l ← net.loss_batch inputs targets
  let a ← net.accuracy_batch inputs targets
  pure (l, a)

/-- Runs `f` `k` times, threading the network state (a panic anywhere is
`none`). -/
def stepN (f : Network → Option Network) : Nat → Network → Option Network
  | 0, n => some n
  | k + 1, n => (f n).bind (stepN f k)

/-- Translated from `src/network/network.rs` lines 97-102: one iteration
of the inner training loop — `backward` on the whole `(inputs, targets)`
pair, `update` with learning rate 0.1, then the `loss` and `accuracy`
calls whose results only feed the progress message (but whose panics
would abort the call). -/
def trainFullStep (net : Network) (inputs targets : Vector) : Option Network := do
  let p ← net.backward inputs targets
  let net2 ← net.update p.1 p.2 (1 / 10)
  let _ ← net2.loss inputs targets
  let _ ← net2.accuracy inputs targets
  pure net2

/-- Translated from `src/network/network.rs` lines 81-111:
`Network::train` runs `epochs` epochs of `inputs.len()` identical
`trainFullStep`s (the loop variable `i` is unused by the body; the
progress bar is display-only I/O and is not modelled). -/
def Network.train (net : Network) (inputs targets : Vector) (epochs : Nat) :
    Option Network :=
  stepN (fun m => stepN (fun n => trainFullStep n inputs targets) inputs.len m)
    epochs net

/-! ## Textual persistence

Text is modelled at the `List Char` level (a Lean `String` is a
`List Char` and the `String` wrappers below are trivial), so that the
split/join behaviour of the source can be reasoned about and evaluated
directly. -/

/-- The literal delimiter token `"Layer"` used by `Network::from_str`. -/
def layerTok : List Char := ['L', 'a', 'y', 'e', 'r']

/-- Rust-style substring split: `splitOnLF sep fuel s` splits `s` on
every occurrence of `sep`, keeping empty fragments (in particular a
leading empty fragment when `s` starts with `sep`), matching
`str::split` in Rust.  `fuel ≥ s.length` makes the fuel irrelevant. -/
def splitOnLF (sep : List Char) : Nat → List Char → List (List Char)
  | _, [] => [[]]
  | 0, s => [s]
  | fuel + 1, c :: cs =>
    if sep ≠ [] ∧ sep.isPrefixOf (c :: cs) then
      [] :: splitOnLF sep fuel (List.drop sep.length (c :: cs))
    else
      match splitOnLF sep fuel cs with
      | [] => [[c]]
      | f :: rest => (c :: f) :: rest

/-- Rust-style substring split with enough fuel. -/
def splitOnL (sep s : List Char) : List (List Char) := splitOnLF sep s.length s

/-- Whitespace used by the textual format (the space between tokens and
the newline `Network::to_string` joins layers with). -/
def isWs (c : Char) : Bool := c = ' ' || c = '\n'

/-- Splits a character list into maximal whitespace-free tokens. -/
def tokenizeAux : List Char → List Char → List (List Char)
  | [], acc => if acc.isEmpty then [] else [acc.reverse]
  | c :: cs, acc =>
    if isWs c then
      (if acc.isEmpty then tokenizeAux cs [] else acc.reverse :: tokenizeAux cs [])
    else tokenizeAux cs (c :: acc)

def tokenize (s : List Char) : List (List Char) := tokenizeAux s []

/-- Decimal digit character of `d` (meaningful for `d < 10`). -/
def digitChar (d : Nat) : Char := Char.ofNat (48 + d)

/-- Little-endian decimal digits of `n`, with fuel (`fuel > n`
suffices). -/
def encNatLF : Nat → Nat → List Char
  | 0, _ => []
  | fuel + 1, n =>
    if n < 10 then [digitChar n]
    else digitChar (n % 10) :: encNatLF fuel (n / 10)

/-- Modelled from the spec (§6): decimal text of a natural number. -/
def encNat (n : Nat) : List Char := (encNatLF (n + 1) n).reverse

/-- Value of a little-endian decimal digit list. -/
def decNatL : List Char → Nat
  | [] => 0
  | c :: cs => (c.toNat - 48) + 10 * decNatL cs

/-- Modelled from the spec (§6): parse decimal text back to a natural
number (garbage in, garbage out — no validation, as the spec notes). -/
def decNat (s : List Char) : Nat := decNatL s.reverse

/-- Modelled from the spec (§6): decimal text of an integer. -/
def encInt (z : ℤ) : List Char :=
  if z < 0 then '-' :: encNat z.natAbs else encNat z.toNat

/-- Modelled from the spec (§6): parse decimal text of an integer. -/
def decInt (s : List Char) : ℤ :=
  match s with
  | '-' :: rest => -(decNat rest : ℤ)
  | _ => (decNat s : ℤ)

/-- Modelled from the spec (§6): text of a scalar, written exactly as
`numerator/denominator` (the model's scalars are rationals; the format
preserves them exactly, the model analogue of "within the precision the
text format preserves"). -/
def encRat (q : ℚ) : List Char := encInt q.num ++ '/' :: encNat q.den

/-- Modelled from the spec (§6): parse a scalar token. -/
def decRat (s : List Char) : ℚ :=
  let a := s.takeWhile (fun c => c != '/')
  match s.dropWhile (fun c => c != '/') with
  | _ :: rest => (decInt a : ℚ) / (decNat rest : ℚ)
  | [] => (decInt a : ℚ)

/-- Modelled from the spec (§6): the tokens of a layer's textual
representation — weight row count, weight column count, the weight
entries row by row, the bias length, the bias entries. -/
def layerTokens (l : Layer) : List (List Char) :=
  encNat l.weights.data.length ::
  encNat l.weights.col_count ::
  (l.weights.data.flatten.map encRat ++
    (encNat l.biases.elements.length :: l.biases.elements.map encRat))

/-- Modelled from the spec (§6): `Layer::to_str` — the delimiter token
`"Layer"` followed by the layer's space-separated numeric tokens. -/
def Layer.to_str (l : Layer) : List Char :=
  layerTok ++ (layerTokens l).foldr (fun t acc => ' ' :: (t ++ acc)) []

/-- Modelled from the spec (§6): rebuild a layer from its parsed tokens;
missing tokens silently decode to garbage (no validation is performed on
parse, as the spec notes). -/
def decLayer (ts : List (List Char)) : Layer :=
  let r := decNat (ts.getD 0 [])
  let c := decNat (ts.getD 1 [])
  let wdata := (List.range r).map
    (fun i => (List.range c).map (fun j => decRat (ts.getD (2 + i * c + j) [])))
  let bl := decNat (ts.getD (2 + r * c) [])
  let bdata := (List.range bl).map (fun k => decRat (ts.getD (3 + r * c + k) []))
  ⟨⟨wdata⟩, ⟨bdata⟩⟩

/-- Modelled from the spec (§6): `Layer::from_str` parses one
`"Layer"`-delimited fragment. -/
def Layer.from_str (s : List Char) : Layer := decLayer (tokenize s)

/-- Translated from `src/network/network.rs` lines 283-286:
`Network::from_str` splits on the literal token `"Layer"` and parses
each resulting fragment into a `Layer`. -/
def Network.from_str (s : String) : Network :=
  ⟨(splitOnL layerTok s.data).map Layer.from_str⟩

/-- Translated from `src/network/network.rs` lines 288-290:
`Network::to_string` joins each layer's textual representation with
newline separators (`save` writes exactly this string, `load` reads it
back and calls `from_str`). -/
def Network.to_string (net : Network) : String :=
  ⟨List.intercalate ['\n'] (net.layers.map Layer.to_str)⟩

/-! ## Definitions following the spec's words

These restate the formulas the claims assert, to be compared with the
code-derived definitions above. -/

/-- Follows the spec's words (claim C1): the output delta as
`error ⊙ activation_derivative(prediction)` with the derivative
`prediction * (1 - prediction)` evaluated from the output. -/
def specOutputDelta (pred target : Vector) : Vector :=
  ⟨List.zipWith (fun p t => (p - t) * (p * (1 - p))) pred.elements target.elements⟩

/-- Follows the spec's words (claim C2): new weights as
`old - learning_rate * gradient`. -/
def specUpdateWeights (w g : Matrix) (lr : ℚ) : Matrix :=
  ⟨List.zipWith (fun r s => List.zipWith (fun a b => a - lr * b) r s) w.data g.data⟩

/-- Follows the spec's words (claim C2): new biases as
`old - learning_rate * delta`. -/
def specUpdateBiases (b d : Vector) (lr : ℚ) : Vector :=
  ⟨List.zipWith (fun a g => a - lr * g) b.elements d.elements⟩

/-! ## General list helpers -/

theorem getD_zipWith {α β γ : Type} (f : α → β → γ) (dA : α) (dB : β) (dC : γ) :
    ∀ (as_ : List α) (bs : List β) (k : Nat), k < as_.length → k < bs.length →
      (List.zipWith f as_ bs).getD k dC = f (as_.getD k dA) (bs.getD k dB) := by
  intro as_
  induction as_ with
  | nil => intro bs k h1 _; simp at h1
  | cons a as_ ih =>
    intro bs k h1 h2
    cases bs with
    | nil => simp at h2
    | cons b bs =>
      cases k with
      | zero => rfl
      | succ k =>
        simpa using ih bs k (by simpa using h1) (by simpa using h2)

theorem getD_replicate' {α : Type} (a d : α) :
    ∀ (n k : Nat), k < n → (List.replicate n a).getD k d = a := by
  intro n
  induction n with
  | zero => intro k h; simp at h
  | succ n ih =>
    intro k h
    cases k with
    | zero => rfl
    | succ k =>
      rw [List.replicate_succ, List.getD_cons_succ]
      exact ih k (by omega)

theorem getD_map_range {α : Type} (f : Nat → α) (d : α) :
    ∀ (n k : Nat), k < n → ((List.range n).map f).getD k d = f k := by
  intro n k h
  rw [List.getD_eq_getElem?_getD, List.getElem?_map, List.getElem?_range h]
  rfl

theorem getD_map_lt {α β : Type} (f : α → β) (d : β) (d0 : α) :
    ∀ (l : List α) (k : Nat), k < l.length → (l.map f).getD k d = f (l.getD k d0) := by
  intro l
  induction l with
  | nil => intro k h; simp at h
  | cons a l ih =>
    intro k h
    cases k with
    | zero => rfl
    | succ k => simpa using ih k (by simpa using h)

theorem getD_set_self {α : Type} (d x : α) :
    ∀ (l : List α) (i : Nat), i < l.length → (l.set i x).getD i d = x := by
  intro l
  induction l with
  | nil => intro i h; simp at h
  | cons a l ih =>
    intro i h
    cases i with
    | zero => rfl
    | succ i => simpa using ih i (by simpa using h)

theorem getD_set_ne {α : Type} (d x : α) :
    ∀ (l : List α) (i k : Nat), i ≠ k → (l.set i x).getD k d = l.getD k d := by
  intro l
  induction l with
  | nil => intro i k _; simp
  | cons a l ih =>
    intro i k hik
    cases i with
    | zero =>
      cases k with
      | zero => exact absurd rfl hik
      | succ k => rfl
    | succ i =>
      cases k with
      | zero => rfl
      | succ k => simpa using ih i k (by omega)

theorem list_ext_getD {α : Type} (d : α) :
    ∀ (a b : List α), a.length = b.length →
      (∀ k, k < a.length → a.getD k d = b.getD k d) → a = b := by
  intro a
  induction a with
  | nil => intro b h _; cases b with
    | nil => rfl
    | cons x b => simp at h
  | cons x a ih =>
    intro b h hpt
    cases b with
    | nil => simp at h
    | cons y b =>
      have h0 := hpt 0 (by simp)
      simp only [List.getD_cons_zero] at h0
      subst h0
      have := ih b (by simpa using h) (fun k hk => by simpa using hpt (k + 1) (by simpa using hk))
      rw [this]

theorem get?_eq_getD {α : Type} (d : α) :
    ∀ (l : List α) (i : Nat), i < l.length → l.get? i = some (l.getD i d) := by
  intro l
  induction l with
  | nil => intro i h; simp at h
  | cons a l ih =>
    intro i h
    cases i with
    | zero => rfl
    | succ i => simpa using ih i (by simpa using h)

theorem set_getD_self {α : Type} (d : α) :
    ∀ (l : List α) (i : Nat), i < l.length → l.set i (l.getD i d) = l := by
  intro l
  induction l with
  | nil => intro i h; simp at h
  | cons a l ih =>
    intro i h
    cases i with
    | zero => rfl
    | succ i => simpa using ih i (by simpa using h)

theorem getLastD_ne_nil {α : Type} {l : List α} (h : l ≠ []) (d1 d2 : α) :
    l.getLastD d1 = l.getLastD d2 := by
  cases l with
  | nil => exact absurd rfl h
  | cons x xs => rw [List.getLastD_cons, List.getLastD_cons]

theorem replicate_eq_map_range {α : Type} (a : α) (n : Nat) :
    List.replicate n a = (List.range n).map (fun _ => a) := by
  apply list_ext_getD a
  · simp
  · intro k hk
    simp only [List.length_replicate] at hk
    rw [getD_replicate' a a n k hk, getD_map_range (fun _ => a) a n k hk]

theorem getD_map_range_self {α : Type} (d : α) (l : List α) :
    (List.range l.length).map (fun j => l.getD j d) = l := by
  apply list_ext_getD d
  · simp
  · intro k hk
    simp only [List.length_map, List.length_range] at hk
    rw [getD_map_range _ d _ k hk]

/-! ## Structural lemmas about the embedded code -/

theorem stepN_add (f : Network → Option Network) (a b : Nat) :
    ∀ n, stepN f (a + b) n = (stepN f a n).bind (stepN f b) := by
  induction a with
  | zero => intro n; simp [stepN]
  | succ a ih =>
    intro n
    have hab : a + 1 + b = (a + b) + 1 := by omega
    rw [hab]
    simp only [stepN]
    cases f n with
    | none => simp
    | some m => simp [ih m]

theorem forwardOutputs_cons (l : Layer) (ls : List Layer) (input : Vector) :
    forwardOutputs (l :: ls) input =
      (l.forward input).bind (fun out =>
        (forwardOutputs ls out).bind (fun rest => some (input :: rest))) := rfl

theorem forward_cons (l : Layer) (ls : List Layer) (input : Vector) :
    (Network.mk (l :: ls)).forward input =
      (l.forward input).bind (fun out => (Network.mk ls).forward out) := rfl

theorem forwardOutputs_length :
    ∀ (ls : List Layer) (input : Vector) (outs : List Vector),
      forwardOutputs ls input = some outs → outs.length = ls.length + 1 := by
  intro ls
  induction ls with
  | nil =>
    intro input outs h
    simp only [forwardOutputs, Option.some.injEq] at h
    subst h; rfl
  | cons l ls ih =>
    intro input outs h
    rw [forwardOutputs_cons] at h
    cases hf : l.forward input with
    | none => rw [hf, Option.none_bind] at h; cases h
    | some out =>
      rw [hf, Option.some_bind] at h
      cases hrest : forwardOutputs ls out with
      | none => rw [hrest, Option.none_bind] at h; cases h
      | some rest =>
        rw [hrest, Option.some_bind, Option.some.injEq] at h
        subst h
        simp [ih out rest hrest]

theorem forwardOutputs_forward :
    ∀ (ls : List Layer) (input : Vector) (outs : List Vector),
      forwardOutputs ls input = some outs →
      (Network.mk ls).forward input = some (outs.getLastD input) ∧ outs ≠ [] := by
  intro ls
  induction ls with
  | nil =>
    intro input outs h
    simp only [forwardOutputs, Option.some.injEq] at h
    subst h
    exact ⟨rfl, by simp⟩
  | cons l ls ih =>
    intro input outs h
    rw [forwardOutputs_cons] at h
    cases hf : l.forward input with
    | none => rw [hf, Option.none_bind] at h; cases h
    | some out =>
      rw [hf, Option.some_bind] at h
      cases hrest : forwardOutputs ls out with
      | none => rw [hrest, Option.none_bind] at h; cases h
      | some rest =>
        rw [hrest, Option.some_bind, Option.some.injEq] at h
        subst h
        obtain ⟨hfwd, hne⟩ := ih out rest hrest
        refine ⟨?_, by simp⟩
        rw [forward_cons, hf, Option.some_bind, List.getLastD_cons]
        calc (Network.mk ls).forward out = some (rest.getLastD out) := hfwd
          _ = some (rest.getLastD input) := by rw [getLastD_ne_nil hne]

theorem zip_replicate {α β : Type} (a : α) (b : β) :
    ∀ k, (List.replicate k a).zip (List.replicate k b) = List.replicate k (a, b) := by
  intro k
  induction k with
  | zero => rfl
  | succ k ih => simp [List.replicate_succ, ih]

theorem mapM_loop_replicate {α β : Type} (f : α → Option β) (p : α) (l : β)
    (hf : f p = some l) :
    ∀ (k : Nat) (acc : List β),
      List.mapM.loop f (List.replicate k p) acc =
        some (acc.reverse ++ List.replicate k l) := by
  intro k
  induction k with
  | zero => intro acc; simp [List.mapM.loop]
  | succ k ih =>
    intro acc
    rw [List.replicate_succ]
    simp only [List.mapM.loop, hf, Option.bind_eq_bind, Option.some_bind]
    rw [ih (l :: acc)]
    simp [List.replicate_succ]

theorem mapM_replicate {α β : Type} (f : α → Option β) (p : α) (l : β)
    (hf : f p = some l) :
    ∀ k, (List.replicate k p).mapM f = some (List.replicate k l) := by
  intro k
  have h := mapM_loop_replicate f p l hf k []
  simpa [List.mapM] using h

theorem subtract_eq_some {v w u : Vector} (h : v.subtract w = some u) :
    v.elements.length = w.elements.length ∧
      u = ⟨List.zipWith (fun a b => a - b) v.elements w.elements⟩ := by
  rw [Vector.subtract] at h
  split at h
  · refine ⟨by assumption, ?_⟩
    injection h with h2
    exact h2.symm
  · cases h

theorem vadd_eq_some {v w u : Vector} (h : v.add w = some u) :
    v.elements.length = w.elements.length ∧
      u = ⟨List.zipWith (fun a b => a + b) v.elements w.elements⟩ := by
  rw [Vector.add] at h
  split at h
  · refine ⟨by assumption, ?_⟩
    injection h with h2
    exact h2.symm
  · cases h

theorem emul_eq_some {v w u : Vector} (h : v.elementwise_multiply w = some u) :
    v.elements.length = w.elements.length ∧
      u = ⟨List.zipWith (fun a b => a * b) v.elements w.elements⟩ := by
  rw [Vector.elementwise_multiply] at h
  split at h
  · refine ⟨by assumption, ?_⟩
    injection h with h2
    exact h2.symm
  · cases h

theorem madd_eq_some {m n u : Matrix} (h : m.add n = some u) :
    m.data.map List.length = n.data.map List.length ∧
      u = ⟨List.zipWith (fun r s => List.zipWith (fun a b => a + b) r s) m.data n.data⟩ := by
  rw [Matrix.add] at h
  split at h
  · refine ⟨by assumption, ?_⟩
    injection h with h2
    exact h2.symm
  · cases h

theorem map_length_map_map {α β : Type} (f : α → β) (L : List (List α)) :
    (L.map (fun r => r.map f)).map List.length = L.map List.length := by
  induction L with
  | nil => rfl
  | cons r L ih => simp [ih]

theorem length_eq_of_map_length {α β : Type} :
    ∀ (a : List (List α)) (b : List (List β)), a.map List.length = b.map List.length →
      a.length = b.length ∧ ∀ i, (a.getD i []).length = (b.getD i []).length := by
  intro a
  induction a with
  | nil =>
    intro b h
    cases b with
    | nil => exact ⟨rfl, fun i => by simp⟩
    | cons s b => simp at h
  | cons r a ih =>
    intro b h
    cases b with
    | nil => simp at h
    | cons s b =>
      simp only [List.map_cons, List.cons.injEq] at h
      obtain ⟨h1, h2⟩ := h
      obtain ⟨hl, hp⟩ := ih b h2
      refine ⟨by simp [hl], ?_⟩
      intro i
      cases i with
      | zero => simpa using h1
      | succ i => simpa using hp i

theorem map_length_zipWith_zipWith {α : Type} (f : α → α → α) :
    ∀ (a b : List (List α)), a.map List.length = b.map List.length →
      (List.zipWith (fun r s => List.zipWith f r s) a b).map List.length =
        a.map List.length := by
  intro a
  induction a with
  | nil => intro b _; rfl
  | cons r a ih =>
    intro b h
    cases b with
    | nil => simp at h
    | cons s b =>
      simp only [List.map_cons, List.cons.injEq] at h
      obtain ⟨h1, h2⟩ := h
      simp [List.length_zipWith, h1, ih b h2]

theorem get?_set_ne {α : Type} (x : α) :
    ∀ (l : List α) (i k : Nat), i ≠ k → (l.set i x).get? k = l.get? k := by
  intro l
  induction l with
  | nil => intro i k _; simp
  | cons a l ih =>
    intro i k hik
    cases i with
    | zero =>
      cases k with
      | zero => exact absurd rfl hik
      | succ k => rfl
    | succ i =>
      cases k with
      | zero => rfl
      | succ k => simpa using ih i k (by omega)

theorem update_eq (net : Network) (wg : Matrix) (dv : Vector) (lr : ℚ) :
    net.update wg dv lr =
      (net.layers.get? 0).bind (fun l0 =>
        ((wg.scalar_multiply lr).add l0.weights).bind (fun newW =>
          ((dv.scalar_multiply lr).add l0.biases).bind (fun newB =>
            some ⟨net.layers.set 0 ⟨newW, newB⟩⟩))) := rfl

theorem outputStage_eq (net : Network) (input target : Vector) :
    net.outputStage input target =
      (forwardOutputs net.layers input).bind (fun outputs =>
        ((outputs.getLastD input).subtract target).bind (fun error =>
          ((outputs.getLastD input).subtract
              (Vector.ones (outputs.getLastD input).len)).bind (fun g1 =>
            ((outputs.getLastD input).elementwise_multiply g1).bind (fun gradient =>
              (net.delta error gradient).bind (fun delta =>
                some (outputs, error, delta)))))) := rfl

theorem backwardParts_eq (net : Network) (input target : Vector) :
    net.backwardParts input target =
      (net.outputStage input target).bind (fun t =>
        (if 2 ≤ t.1.length then t.1.get? (t.1.length - 2) else none).bind (fun penult =>
          (net.weight_gradients penult (t.1.getLastD input) t.2.2).bind (fun wg0 =>
            (backSteps net.layers t.1 (net.layers.length - 1) t.2.2).bind (fun steps =>
              some (t.2.2 :: steps.map Prod.snd, wg0 :: steps.map Prod.fst))))) := rfl

theorem backward_eq (net : Network) (input target : Vector) :
    net.backward input target =
      (net.backwardParts input target).bind (fun p =>
        (net.layers.get? 0).bind (fun l0 =>
          (p.2.foldlM (fun (acc g : Matrix) => acc.add g)
              (Matrix.zeros l0.weights.col_count l0.weights.row_count)).bind (fun totalW =>
            (p.1.foldlM (fun (acc v : Vector) => acc.add v)
                (Vector.zeros l0.weights.row_count)).bind (fun totalD =>
              some (totalW, totalD))))) := rfl

theorem backSteps_succ (layers : List Layer) (outputs : List Vector) (i : Nat)
    (prevDelta : Vector) :
    backSteps layers outputs (i + 1) prevDelta =
      (layers.get? (i + 1)).bind (fun layer =>
        (outputs.get? (i + 1)).bind (fun output =>
          (outputs.get? i).bind (fun inp =>
            (output.subtract (Vector.ones output.len)).bind (fun g1 =>
              (output.elementwise_multiply g1).bind (fun gradient =>
                (layer.delta prevDelta gradient).bind (fun nd =>
                  (layer.weight_gradients inp output nd).bind (fun wg =>
                    (backSteps layers outputs i nd).bind (fun rest =>
                      some ((wg, nd) :: rest))))))))) := rfl

theorem backSteps_length (layers : List Layer) (outputs : List Vector) :
    ∀ (i : Nat) (d : Vector) (steps : List (Matrix × Vector)),
      backSteps layers outputs i d = some steps → steps.length = i := by
  intro i
  induction i with
  | zero =>
    intro d steps h
    simp only [backSteps, Option.some.injEq] at h
    subst h; rfl
  | succ i ih =>
    intro d steps h
    rw [backSteps_succ] at h
    simp only [Option.bind_eq_some, Option.some.injEq] at h
    obtain ⟨layer, _, output, _, inp, _, g1, _, gradient, _, nd, _, wg, _, rest, hrest, hsteps⟩ := h
    subst hsteps
    simp [ih nd rest hrest]

theorem outputStage_some_outputs {net : Network} {input target : Vector}
    {outs : List Vector} {e d : Vector}
    (h : net.outputStage input target = some (outs, e, d)) :
    forwardOutputs net.layers input = some outs := by
  rw [outputStage_eq] at h
  simp only [Option.bind_eq_some, Option.some.injEq] at h
  obtain ⟨outputs, hfo, error, _, g1, _, gradient, _, delta, _, heq⟩ := h
  have : outputs = outs := congrArg Prod.fst heq
  subst this
  exact hfo

theorem foldlM_vector_add :
    ∀ (l : List Vector) (acc res : Vector),
      l.foldlM (fun a v => a.add v) acc = some res →
      res.elements.length = acc.elements.length ∧
      ∀ k, k < acc.elements.length →
        res.elements.getD k 0 =
          acc.elements.getD k 0 + (l.map (fun v => v.elements.getD k 0)).sum := by
  intro l
  induction l with
  | nil =>
    intro acc res h
    have hacc : acc = res := by
      simpa using h
    subst hacc
    exact ⟨rfl, fun k _ => by simp⟩
  | cons v l ih =>
    intro acc res h
    have hstep : (v :: l).foldlM (fun (a w : Vector) => a.add w) acc =
        (acc.add v).bind (fun a => l.foldlM (fun (a w : Vector) => a.add w) a) := rfl
    rw [hstep] at h
    cases ha : acc.add v with
    | none => rw [ha, Option.none_bind] at h; cases h
    | some a1 =>
    rw [ha, Option.some_bind] at h
    obtain ⟨hlen, rfl⟩ := vadd_eq_some ha
    obtain ⟨ihlen, ihpt⟩ := ih _ res h
    simp only [List.length_zipWith] at ihlen
    constructor
    · omega
    · intro k hk
      have hk2 : k < (List.zipWith (fun a b => a + b) acc.elements v.elements).length := by
        simp only [List.length_zipWith]; omega
      rw [ihpt k (by simpa using hk2)]
      rw [getD_zipWith (fun a b => a + b) 0 0 0 acc.elements v.elements k hk (by omega)]
      simp [add_assoc]

theorem foldlM_matrix_add :
    ∀ (l : List Matrix) (acc res : Matrix),
      l.foldlM (fun a g => a.add g) acc = some res →
      res.data.map List.length = acc.data.map List.length ∧
      ∀ i j, i < acc.data.length → j < (acc.data.getD i []).length →
        res.entry i j = acc.entry i j + (l.map (fun g => g.entry i j)).sum := by
  intro l
  induction l with
  | nil =>
    intro acc res h
    have hacc : acc = res := by simpa using h
    subst hacc
    exact ⟨rfl, fun i j _ _ => by simp⟩
  | cons g l ih =>
    intro acc res h
    have hstep : (g :: l).foldlM (fun (a u : Matrix) => a.add u) acc =
        (acc.add g).bind (fun a => l.foldlM (fun (a u : Matrix) => a.add u) a) := rfl
    rw [hstep] at h
    cases ha : acc.add g with
    | none => rw [ha, Option.none_bind] at h; cases h
    | some a1 =>
    rw [ha, Option.some_bind] at h
    obtain ⟨hshape, rfl⟩ := madd_eq_some ha
    obtain ⟨hlenEq, hptEq⟩ := length_eq_of_map_length acc.data g.data hshape
    have hzipShape :
        (List.zipWith (fun r s => List.zipWith (fun a b => a + b) r s)
          acc.data g.data).map List.length = acc.data.map List.length :=
      map_length_zipWith_zipWith (fun a b => a + b) acc.data g.data hshape
    obtain ⟨ihShape, ihpt⟩ := ih _ res h
    dsimp only at ihShape ihpt
    constructor
    · rw [ihShape, hzipShape]
    · intro i j hi hj
      obtain ⟨hzLen, hzRow⟩ := length_eq_of_map_length _ acc.data hzipShape
      have hiz : i < (List.zipWith (fun r s => List.zipWith (fun a b => a + b) r s)
          acc.data g.data).length := by omega
      have hjz : j < ((List.zipWith (fun r s => List.zipWith (fun a b => a + b) r s)
          acc.data g.data).getD i []).length := by rw [hzRow i]; exact hj
      rw [ihpt i j hiz hjz]
      have hentry : (Matrix.mk (List.zipWith (fun r s => List.zipWith (fun a b => a + b) r s)
          acc.data g.data)).entry i j = acc.entry i j + g.entry i j := by
        simp only [Matrix.entry]
        rw [getD_zipWith (fun r s => List.zipWith (fun a b => a + b) r s)
          [] [] [] acc.data g.data i hi (by omega)]
        rw [getD_zipWith (fun a b => a + b) 0 0 0 _ _ j hj (by rw [← hptEq i]; exact hj)]
      rw [hentry]
      simp [add_assoc]

theorem foldlM_append_option {α β : Type} (f : β → α → Option β) :
    ∀ (l1 l2 : List α) (init : β),
      (l1 ++ l2).foldlM f init = (l1.foldlM f init).bind (fun b => l2.foldlM f b) := by
  intro l1
  induction l1 with
  | nil => intro l2 init; simp
  | cons a l1 ih =>
    intro l2 init
    show (f init a).bind _ = ((f init a).bind _).bind _
    cases f init a with
    | none => simp
    | some b => simp only [Option.some_bind]; exact ih l2 b

theorem getD_mem {α : Type} (d : α) :
    ∀ (l : List α) (i : Nat), i < l.length → l.getD i d ∈ l := by
  intro l
  induction l with
  | nil => intro i h; simp at h
  | cons a l ih =>
    intro i h
    cases i with
    | zero => simp
    | succ i =>
      rw [List.getD_cons_succ]
      exact List.mem_cons_of_mem a (ih i (by simpa using h))

theorem headD_length {α : Type} (c : Nat) :
    ∀ (L : List (List α)), L ≠ [] → (∀ row ∈ L, row.length = c) →
      (L.headD []).length = c := by
  intro L hne hall
  cases L with
  | nil => exact absurd rfl hne
  | cons r L => exact hall r (List.mem_cons_self r L)

theorem weight_gradients_eq (net : Network) (input output gradient : Vector) :
    net.weight_gradients input output gradient =
      match net.layers.getLast? with
      | none => none
      | some last =>
        (List.range last.weights.col_count).foldlM
          (fun (m : Matrix) (i : Nat) => (List.range last.weights.row_count).foldlM
            (fun (m2 : Matrix) (j : Nat) => (input.get_element i).bind (fun a =>
              (gradient.get_element j).bind (fun b => m2.set_element i j (a * b)))) m)
          (Matrix.zeros last.weights.col_count last.weights.row_count) := rfl

theorem wg_inner_fold (input gradient : Vector) (rows cols : Nat) (i : Nat) (ai : ℚ)
    (hai : input.get_element i = some ai) (hg : rows ≤ gradient.elements.length) :
    ∀ (t : Nat), t ≤ rows →
      ∀ (m : Matrix), m.data.length = cols → (∀ row ∈ m.data, row.length = rows) →
        i < cols →
        (List.range t).foldlM
          (fun (m2 : Matrix) (j : Nat) => (input.get_element i).bind (fun a =>
            (gradient.get_element j).bind (fun b => m2.set_element i j (a * b)))) m
        = some ⟨m.data.set i ((List.range rows).map (fun j =>
            if j < t then ai * gradient.elements.getD j 0
            else (m.data.getD i []).getD j 0))⟩ := by
  intro t
  induction t with
  | zero =>
    intro _ m hmr hrect hi
    have horig : (m.data.getD i []).length = rows :=
      hrect _ (getD_mem [] m.data i (by omega))
    have hmap : (List.range rows).map (fun j =>
        if j < 0 then ai * gradient.elements.getD j 0
        else (m.data.getD i []).getD j 0) = m.data.getD i [] := by
      rw [List.map_congr_left (fun j _ => if_neg (Nat.not_lt_zero j))]
      rw [← horig]
      exact getD_map_range_self 0 (m.data.getD i [])
    rw [List.range_zero]
    show some m = _
    rw [hmap, set_getD_self [] m.data i (by omega)]
  | succ t ih =>
    intro ht m hmr hrect hi
    have hMt := ih (by omega) m hmr hrect hi
    rw [List.range_succ, foldlM_append_option, hMt, Option.some_bind]
    set mixt : List ℚ := (List.range rows).map (fun j =>
      if j < t then ai * gradient.elements.getD j 0
      else (m.data.getD i []).getD j 0) with hmixt
    have hmixlen : mixt.length = rows := by
      rw [hmixt]; simp
    have hMtrect : ∀ row ∈ m.data.set i mixt, row.length = rows := by
      intro row hrow
      rcases List.mem_or_eq_of_mem_set hrow with hrow2 | hrow2
      · exact hrect row hrow2
      · rw [hrow2]; exact hmixlen
    have hMtne : m.data.set i mixt ≠ [] := by
      have : (m.data.set i mixt).length = m.data.length := by simp
      intro hcontra
      rw [hcontra] at this
      simp at this
      omega
    have hgt : gradient.get_element t = some (gradient.elements.getD t 0) :=
      get?_eq_getD 0 gradient.elements t (by omega)
    have hset : (Matrix.mk (m.data.set i mixt)).set_element i t
        (ai * gradient.elements.getD t 0) =
        some ⟨(m.data.set i mixt).set i
          (((m.data.set i mixt).getD i []).set t (ai * gradient.elements.getD t 0))⟩ := by
      rw [Matrix.set_element, if_pos]
      constructor
      · show i < (m.data.set i mixt).length
        simp; omega
      · show t < (Matrix.mk (m.data.set i mixt)).col_count
        rw [Matrix.col_count]
        show t < ((m.data.set i mixt).headD []).length
        rw [headD_length rows _ hMtne hMtrect]
        omega
    show List.foldlM _ _ [t] = _
    have hsingle : ∀ (m2 : Matrix), List.foldlM
        (fun (m2 : Matrix) (j : Nat) => (input.get_element i).bind (fun a =>
          (gradient.get_element j).bind (fun b => m2.set_element i j (a * b)))) m2 [t] =
        (input.get_element i).bind (fun a =>
          (gradient.get_element t).bind (fun b => m2.set_element i t (a * b))) := by
      intro m2
      show ((input.get_element i).bind _).bind _ = _
      cases hx : (input.get_element i).bind (fun a =>
          (gradient.get_element t).bind (fun b => m2.set_element i t (a * b))) with
      | none => rfl
      | some mm => rfl
    rw [hsingle, hai, Option.some_bind, hgt, Option.some_bind, hset]
    congr 1
    rw [Matrix.mk.injEq]
    rw [getD_set_self [] mixt m.data i (by omega), List.set_set]
    congr 1
    apply list_ext_getD 0
    · simp [hmixlen]
    · intro k hk
      rw [List.length_set, hmixlen] at hk
      by_cases hkt : k = t
      · subst hkt
        have hkmix : k < mixt.length := by rw [hmixlen]; exact hk
        rw [getD_set_self 0 _ mixt k hkmix]
        rw [getD_map_range _ 0 rows k hk]
        rw [if_pos (show k < k + 1 by omega)]
      · rw [getD_set_ne 0 _ mixt t k (fun hcontra => hkt hcontra.symm)]
        rw [hmixt]
        rw [getD_map_range _ 0 rows k (by omega), getD_map_range _ 0 rows k (by omega)]
        by_cases hklt : k < t
        · rw [if_pos hklt, if_pos (by omega)]
        · rw [if_neg hklt, if_neg (by omega)]

theorem wg_outer_fold (input gradient : Vector) (rows cols : Nat)
    (hc : cols ≤ input.elements.length) (hg : rows ≤ gradient.elements.length) :
    ∀ (t : Nat), t ≤ cols →
      (List.range t).foldlM
        (fun (m : Matrix) (i : Nat) => (List.range rows).foldlM
          (fun (m2 : Matrix) (j : Nat) => (input.get_element i).bind (fun a =>
            (gradient.get_element j).bind (fun b => m2.set_element i j (a * b)))) m)
        (Matrix.zeros cols rows)
      = some ⟨(List.range cols).map (fun i =>
          if i < t then (List.range rows).map (fun j =>
            input.elements.getD i 0 * gradient.elements.getD j 0)
          else List.replicate rows 0)⟩ := by
  intro t
  induction t with
  | zero =>
    rw [List.range_zero]
    intro _
    show some (Matrix.zeros cols rows) = _
    rw [Matrix.zeros]
    congr 1
    rw [Matrix.mk.injEq]
    rw [List.map_congr_left (fun i _ => if_neg (Nat.not_lt_zero i))]
    exact replicate_eq_map_range (List.replicate rows 0) cols
  | succ t ih =>
    intro ht
    rw [List.range_succ, foldlM_append_option, ih (by omega), Option.some_bind]
    set Mt : List (List ℚ) := (List.range cols).map (fun i =>
      if i < t then (List.range rows).map (fun j =>
        input.elements.getD i 0 * gradient.elements.getD j 0)
      else List.replicate rows 0) with hMt
    have hMtlen : Mt.length = cols := by rw [hMt]; simp
    have hMtrect : ∀ row ∈ Mt, row.length = rows := by
      intro row hrow
      rw [hMt] at hrow
      obtain ⟨i, _, hrow2⟩ := List.mem_map.mp hrow
      rw [← hrow2]
      by_cases hit : i < t
      · rw [if_pos hit]; simp
      · rw [if_neg hit]; simp
    have hat : input.get_element t = some (input.elements.getD t 0) :=
      get?_eq_getD 0 input.elements t (by omega)
    have hsingle : ∀ (m2 : Matrix), List.foldlM
        (fun (m : Matrix) (i : Nat) => (List.range rows).foldlM
          (fun (m2 : Matrix) (j : Nat) => (input.get_element i).bind (fun a =>
            (gradient.get_element j).bind (fun b => m2.set_element i j (a * b)))) m)
        m2 [t] =
        (List.range rows).foldlM
          (fun (m2 : Matrix) (j : Nat) => (input.get_element t).bind (fun a =>
            (gradient.get_element j).bind (fun b => m2.set_element t j (a * b)))) m2 := by
      intro m2
      show ((List.range rows).foldlM
          (fun (m2 : Matrix) (j : Nat) => (input.get_element t).bind (fun a =>
            (gradient.get_element j).bind (fun b => m2.set_element t j (a * b)))) m2).bind
          _ = _
      cases hx : (List.range rows).foldlM
          (fun (m2 : Matrix) (j : Nat) => (input.get_element t).bind (fun a =>
            (gradient.get_element j).bind (fun b => m2.set_element t j (a * b)))) m2 with
      | none => rfl
      | some mm => rfl
    rw [hsingle]
    rw [wg_inner_fold input gradient rows cols t (input.elements.getD t 0) hat hg
      rows (le_refl rows) ⟨Mt⟩ hMtlen hMtrect (by omega)]
    congr 1
    rw [Matrix.mk.injEq]
    apply list_ext_getD []
    · simp [hMtlen]
    · intro k hk
      rw [List.length_set, hMtlen] at hk
      by_cases hkt : k = t
      · subst hkt
        have hkM : k < Mt.length := by rw [hMtlen]; exact hk
        rw [getD_set_self [] _ Mt k hkM]
        conv_rhs => rw [getD_map_range _ [] cols k hk, if_pos (show k < k + 1 by omega)]
        apply List.map_congr_left
        intro j hj
        rw [if_pos (List.mem_range.mp hj)]
      · rw [getD_set_ne [] _ Mt t k (fun hcontra => hkt hcontra.symm)]
        rw [hMt]
        rw [getD_map_range _ [] cols k (by omega), getD_map_range _ [] cols k (by omega)]
        by_cases hklt : k < t
        · rw [if_pos hklt, if_pos (by omega)]
        · rw [if_neg hklt, if_neg (by omega)]

/-! ## Claim theorems -/

/-- Claim C5 (confirmed): `Network::predict` returns the same vector as
`Network::forward` on every network and input; both take `&self` in the
source and are modelled as pure functions, so neither modifies the
network. -/
theorem predict_eq_forward (net : Network) (input : Vector) :
    net.predict input = net.forward input := rfl

/-- Claim C9 (confirmed): on a network with an empty layer list, both
`Network::forward` and `Network::predict` return the input vector
unchanged. -/
theorem forward_empty_id (input : Vector) :
    (Network.mk []).forward input = some input ∧
      (Network.mk []).predict input = some input :=
  ⟨rfl, rfl⟩

/-- Claim C10 (confirmed): `Network::train` terminates and is exactly
`epochs * inputs.len()` successive `trainFullStep`s — each epoch performs
`inputs.len()` backward-plus-update steps, each invoked on the entire
`(inputs, targets)` pair with the fixed learning rate 0.1 (see
`trainFullStep`). -/
theorem train_step_count (net : Network) (inputs targets : Vector) (epochs : Nat) :
    net.train inputs targets epochs =
      stepN (fun n => trainFullStep n inputs targets) (epochs * inputs.len) net := by
  induction epochs generalizing net with
  | zero => rw [Nat.zero_mul]; rfl
  | succ e ih =>
    show ((stepN (fun n => trainFullStep n inputs targets) inputs.len net).bind _) = _
    have hm : (e + 1) * inputs.len = inputs.len + e * inputs.len := by ring
    rw [hm, stepN_add]
    cases stepN (fun n => trainFullStep n inputs targets) inputs.len net with
    | none => simp
    | some m => rw [Option.some_bind, Option.some_bind]; exact ih m

/-- Claim C8 (confirmed): `Network::evaluate_batch` on `k ≥ 1` copies of
one `(input, target)` pair returns exactly
`(loss(input, target), accuracy(input, target))`. -/
theorem evaluate_batch_replicate (net : Network) (input target : Vector) (k : Nat)
    (hk : 1 ≤ k) (l a : ℚ) (hl : net.loss input target = some l)
    (ha : net.accuracy input target = some a) :
    net.evaluate_batch (List.replicate k input) (List.replicate k target) =
      some (l, a) := by
  have hk0 : ((k : ℚ)) ≠ 0 := Nat.cast_ne_zero.mpr (by omega)
  have hlb : net.loss_batch (List.replicate k input) (List.replicate k target) = some l := by
    rw [Network.loss_batch, zip_replicate,
      mapM_replicate (fun p => net.loss p.1 p.2) (input, target) l hl k]
    simp [List.sum_replicate, nsmul_eq_mul, mul_div_cancel_left₀ l hk0]
  have hab : net.accuracy_batch (List.replicate k input) (List.replicate k target) =
      some a := by
    rw [Network.accuracy_batch, zip_replicate,
      mapM_replicate (fun p => net.accuracy p.1 p.2) (input, target) a ha k]
    simp [List.sum_replicate, nsmul_eq_mul, mul_div_cancel_left₀ a hk0]
  rw [Network.evaluate_batch, hlb]
  simp [hab]

/-- Witness for C8 at a concrete instance: the empty network, input
`[1]`, target `[0]`, `k = 2`. -/
theorem evaluate_batch_replicate_witness :
    (Network.mk []).evaluate_batch (List.replicate 2 ⟨[1]⟩) (List.replicate 2 ⟨[0]⟩) =
      some (1, 0) :=
  evaluate_batch_replicate (Network.mk []) ⟨[1]⟩ ⟨[0]⟩ 2 (by norm_num) 1 0
    (by norm_num [Network.loss, Network.forward, List.foldlM, Vector.subtract,
      Vector.magnitude])
    (by norm_num [Network.accuracy, Network.forward, List.foldlM, Vector.subtract,
      Vector.len, List.countP, List.countP.go])

theorem activation_two : activation 2 = 5 / 6 := by
  rw [activation, abs_of_nonneg (by norm_num : (0:ℚ) ≤ 2)]
  norm_num

/-- Claim C1 (corrected): for every network with at least one layer,
`Network::backward` computes the output error as `prediction - target`
componentwise, but the output delta multiplies that error componentwise
by `prediction * (prediction - 1)` — the *negation* of the
`prediction * (1 - prediction)` derivative the spec states (the sign is
compensated later because `Network::update` adds rather than subtracts
the gradient). -/
theorem outputDelta_code (net : Network) (input target : Vector)
    (outs : List Vector) (e d : Vector) (hne : net.layers ≠ [])
    (h : net.outputStage input target = some (outs, e, d)) :
    net.forward input = some (outs.getLastD input) ∧
    e.elements.length = target.elements.length ∧
    d.elements.length = target.elements.length ∧
    ∀ k, k < target.elements.length →
      e.elements.getD k 0 =
        (outs.getLastD input).elements.getD k 0 - target.elements.getD k 0 ∧
      d.elements.getD k 0 =
        ((outs.getLastD input).elements.getD k 0 - target.elements.getD k 0) *
          ((outs.getLastD input).elements.getD k 0 *
            ((outs.getLastD input).elements.getD k 0 - 1)) := by
  obtain ⟨layers⟩ := net
  rw [outputStage_eq] at h
  cases hfo : forwardOutputs layers input with
  | none => rw [hfo, Option.none_bind] at h; cases h
  | some outputs =>
  rw [hfo, Option.some_bind] at h
  cases hsub : (outputs.getLastD input).subtract target with
  | none => rw [hsub, Option.none_bind] at h; cases h
  | some error =>
  rw [hsub, Option.some_bind] at h
  cases hg1 : (outputs.getLastD input).subtract
      (Vector.ones (outputs.getLastD input).len) with
  | none => rw [hg1, Option.none_bind] at h; cases h
  | some g1 =>
  rw [hg1, Option.some_bind] at h
  cases hgr : (outputs.getLastD input).elementwise_multiply g1 with
  | none => rw [hgr, Option.none_bind] at h; cases h
  | some gradient =>
  rw [hgr, Option.some_bind] at h
  cases hdel : (Network.mk layers).delta error gradient with
  | none => rw [hdel, Option.none_bind] at h; cases h
  | some delta =>
  rw [hdel, Option.some_bind, Option.some.injEq] at h
  obtain ⟨rfl, rfl, rfl⟩ : outputs = outs ∧ error = e ∧ delta = d := by
    have h1 := congrArg Prod.fst h
    have h2 := congrArg (fun p => p.2.1) h
    have h3 := congrArg (fun p => p.2.2) h
    exact ⟨h1, h2, h3⟩
  obtain ⟨hlen1, rfl⟩ := subtract_eq_some hsub
  obtain ⟨hlen2, rfl⟩ := subtract_eq_some hg1
  obtain ⟨hlen3, rfl⟩ := emul_eq_some hgr
  obtain ⟨hlen4, rfl⟩ := emul_eq_some hdel
  have hfwd := (forwardOutputs_forward layers input outputs hfo).1
  set pred := outputs.getLastD input with hpredDef
  have hones : (Vector.ones pred.len).elements.length = pred.elements.length := by
    simp [Vector.ones, Vector.len]
  have hPredLen : pred.elements.length = target.elements.length := hlen1
  constructor
  · exact hfwd
  have hElen : (List.zipWith (fun a b => a - b) pred.elements target.elements).length =
      target.elements.length := by
    rw [List.length_zipWith]; omega
  have hG1len : (List.zipWith (fun a b => a - b) pred.elements
      (Vector.ones pred.len).elements).length = pred.elements.length := by
    rw [List.length_zipWith]; omega
  have hGradLen : (List.zipWith (fun a b => a * b) pred.elements
      (List.zipWith (fun a b => a - b) pred.elements
        (Vector.ones pred.len).elements)).length = pred.elements.length := by
    rw [List.length_zipWith]; omega
  refine ⟨hElen, ?_, ?_⟩
  · rw [List.length_zipWith, hElen, hGradLen]; omega
  intro k hk
  have hkP : k < pred.elements.length := by omega
  have hkE : k < (List.zipWith (fun a b => a - b) pred.elements target.elements).length := by
    omega
  have hkG1 : k < (List.zipWith (fun a b => a - b) pred.elements
      (Vector.ones pred.len).elements).length := by omega
  have hkGrad : k < (List.zipWith (fun a b => a * b) pred.elements
      (List.zipWith (fun a b => a - b) pred.elements
        (Vector.ones pred.len).elements)).length := by omega
  constructor
  · exact getD_zipWith (fun a b => a - b) 0 0 0 pred.elements target.elements k hkP (by omega)
  · show (List.zipWith (fun a b => a * b) _ _).getD k 0 = _
    rw [getD_zipWith (fun a b => a * b) 0 0 0 _ _ k hkE hkGrad]
    rw [getD_zipWith (fun a b => a - b) 0 0 0 pred.elements target.elements k hkP (by omega)]
    rw [getD_zipWith (fun a b => a * b) 0 0 0 pred.elements _ k hkP hkG1]
    rw [getD_zipWith (fun a b => a - b) 0 0 0 pred.elements
      (Vector.ones pred.len).elements k hkP (by omega)]
    have hone1 : (Vector.ones pred.len).elements.getD k 0 = 1 := by
      rw [Vector.ones]
      exact getD_replicate' 1 0 pred.len k (by simpa [Vector.len] using hkP)
    rw [hone1]

/-- Witness for C1's corrected theorem at a concrete one-layer network
(weights `[[1]]`, biases `[0]`, input `[2]`, target `[0]`; the
prediction is `5/6` and the computed output delta `-25/216`). -/
theorem outputDelta_code_witness :
    (Network.mk [Layer.mk ⟨[[1]]⟩ ⟨[0]⟩]).forward ⟨[2]⟩ = some ⟨[5/6]⟩ ∧
    (∀ k, k < 1 →
      (Vector.mk [(5:ℚ)/6]).elements.getD k 0 =
          (Vector.mk [(5:ℚ)/6]).elements.getD k 0 -
            (Vector.mk [(0:ℚ)]).elements.getD k 0 ∧
      (Vector.mk [(-25:ℚ)/216]).elements.getD k 0 =
          ((Vector.mk [(5:ℚ)/6]).elements.getD k 0 -
              (Vector.mk [(0:ℚ)]).elements.getD k 0) *
            ((Vector.mk [(5:ℚ)/6]).elements.getD k 0 *
              ((Vector.mk [(5:ℚ)/6]).elements.getD k 0 - 1))) := by
  have h := outputDelta_code (Network.mk [Layer.mk ⟨[[1]]⟩ ⟨[0]⟩]) ⟨[2]⟩ ⟨[0]⟩
    [⟨[2]⟩, ⟨[5/6]⟩] ⟨[5/6]⟩ ⟨[-25/216]⟩ (by simp)
    (by norm_num [Network.outputStage, forwardOutputs, Layer.forward, Vector.len,
      Matrix.col_count, dot, Vector.add, Vector.subtract, Vector.ones,
      Vector.elementwise_multiply, Network.delta, activation_two])
  exact ⟨h.1, h.2.2.2⟩

/-- Claim C1 as stated is false on the code: at the one-layer network
with weights `[[1]]` and biases `[0]`, input `[2]` and target `[0]`, the
prediction is `5/6`, the delta `Network::backward` computes is
`[-25/216]`, while `error ⊙ (prediction * (1 - prediction))` as the spec
states it is `[25/216]`. -/
theorem outputDelta_spec_cex :
    (Network.mk [Layer.mk ⟨[[1]]⟩ ⟨[0]⟩]).forward ⟨[2]⟩ = some ⟨[5/6]⟩ ∧
    (Network.mk [Layer.mk ⟨[[1]]⟩ ⟨[0]⟩]).outputStage ⟨[2]⟩ ⟨[0]⟩ =
      some ([⟨[2]⟩, ⟨[5/6]⟩], ⟨[5/6]⟩, ⟨[-25/216]⟩) ∧
    specOutputDelta ⟨[5/6]⟩ ⟨[0]⟩ = ⟨[25/216]⟩ ∧
    (⟨[(-25:ℚ)/216]⟩ : Vector) ≠ ⟨[25/216]⟩ := by
  refine ⟨?_, ?_, ?_, ?_⟩
  · norm_num [Network.forward, List.foldlM, Layer.forward, Vector.len,
      Matrix.col_count, dot, Vector.add, activation_two]
  · norm_num [Network.outputStage, forwardOutputs, Layer.forward, Vector.len,
      Matrix.col_count, dot, Vector.add, Vector.subtract, Vector.ones,
      Vector.elementwise_multiply, Network.delta, activation_two]
  · norm_num [specOutputDelta]
  · intro hcontra
    have : ((-25:ℚ)/216) = 25/216 := by
      have := congrArg (fun v : Vector => v.elements.getD 0 0) hcontra
      simpa using this
    norm_num at this

/-- Claim C2 (corrected): `Network::update` moves the first layer's
parameters *with* the supplied gradient, not against it: the new weights
are `weight_gradient * learning_rate + old` componentwise and the new
biases `delta * learning_rate + old` componentwise (an addition where the
spec states a subtraction; the sign is compensated by `backward`
returning negated gradients). -/
theorem update_gradient_step (net : Network) (wg : Matrix) (dv : Vector) (lr : ℚ)
    (net2 : Network) (h : net.update wg dv lr = some net2) :
    ∃ l0 w2 b2,
      net.layers.get? 0 = some l0 ∧
      net2.layers = net.layers.set 0 ⟨w2, b2⟩ ∧
      w2.data.map List.length = l0.weights.data.map List.length ∧
      (∀ i j, i < l0.weights.data.length → j < (l0.weights.data.getD i []).length →
        w2.entry i j = wg.entry i j * lr + l0.weights.entry i j) ∧
      b2.elements.length = l0.biases.elements.length ∧
      (∀ k, k < l0.biases.elements.length →
        b2.elements.getD k 0 = dv.elements.getD k 0 * lr + l0.biases.elements.getD k 0) := by
  rw [update_eq] at h
  cases hl0 : net.layers.get? 0 with
  | none => rw [hl0, Option.none_bind] at h; cases h
  | some l0 =>
  rw [hl0, Option.some_bind] at h
  cases hw : (wg.scalar_multiply lr).add l0.weights with
  | none => rw [hw, Option.none_bind] at h; cases h
  | some newW =>
  rw [hw, Option.some_bind] at h
  cases hb : (dv.scalar_multiply lr).add l0.biases with
  | none => rw [hb, Option.none_bind] at h; cases h
  | some newB =>
  rw [hb, Option.some_bind, Option.some.injEq] at h
  subst h
  obtain ⟨hwShape, rfl⟩ := madd_eq_some hw
  obtain ⟨hbLen, rfl⟩ := vadd_eq_some hb
  rw [Matrix.scalar_multiply] at hwShape
  rw [Vector.scalar_multiply] at hbLen
  simp only [List.length_map] at hbLen
  have hwShape' : wg.data.map List.length = l0.weights.data.map List.length := by
    rw [← map_length_map_map (fun a => a * lr) wg.data]
    exact hwShape
  obtain ⟨hRows, hRowLen⟩ := length_eq_of_map_length wg.data l0.weights.data hwShape'
  refine ⟨l0, _, _, hl0 ▸ rfl, rfl, ?_, ?_, ?_, ?_⟩
  · rw [Matrix.scalar_multiply]
    rw [map_length_zipWith_zipWith (fun a b => a + b) _ _ hwShape]
    exact hwShape
  · intro i j hi hj
    have hiW : i < wg.data.length := by omega
    have hijW : j < (wg.data.getD i []).length := by rw [hRowLen i]; exact hj
    rw [Matrix.entry, Matrix.scalar_multiply]
    rw [getD_zipWith (fun r s => List.zipWith (fun a b => a + b) r s) [] [] []
      _ _ i (by simpa using hiW) hi]
    rw [getD_zipWith (fun a b => a + b) 0 0 0 _ _ j
      (by rw [getD_map_lt (fun r => r.map (fun a => a * lr)) [] [] wg.data i hiW]
          simpa using hijW) hj]
    rw [getD_map_lt (fun r => r.map (fun a => a * lr)) [] [] wg.data i hiW]
    rw [getD_map_lt (fun a => a * lr) 0 0 (wg.data.getD i []) j hijW]
    rfl
  · rw [Vector.scalar_multiply]
    simp only [List.length_zipWith, List.length_map]
    omega
  · intro k hk
    rw [Vector.scalar_multiply]
    rw [getD_zipWith (fun a b => a + b) 0 0 0 _ _ k (by simpa using (by omega : k < dv.elements.length)) hk]
    rw [getD_map_lt (fun a => a * lr) 0 0 dv.elements k (by omega)]

/-- Witness for C2's corrected theorem at a concrete one-layer network
(weights `[[0]]`, biases `[0]`, gradient `[[1]]`, delta `[1]`, learning
rate 1). -/
theorem update_gradient_step_witness :
    ∃ l0 w2 b2,
      (Network.mk [Layer.mk ⟨[[0]]⟩ ⟨[0]⟩]).layers.get? 0 = some l0 ∧
      (Network.mk [Layer.mk ⟨[[1]]⟩ ⟨[1]⟩]).layers =
        (Network.mk [Layer.mk ⟨[[0]]⟩ ⟨[0]⟩]).layers.set 0 ⟨w2, b2⟩ ∧
      w2.data.map List.length = l0.weights.data.map List.length ∧
      (∀ i j, i < l0.weights.data.length → j < (l0.weights.data.getD i []).length →
        w2.entry i j = (⟨[[1]]⟩ : Matrix).entry i j * 1 + l0.weights.entry i j) ∧
      b2.elements.length = l0.biases.elements.length ∧
      (∀ k, k < l0.biases.elements.length →
        b2.elements.getD k 0 =
          (⟨[1]⟩ : Vector).elements.getD k 0 * 1 + l0.biases.elements.getD k 0) :=
  update_gradient_step (Network.mk [Layer.mk ⟨[[0]]⟩ ⟨[0]⟩]) ⟨[[1]]⟩ ⟨[1]⟩ 1
    (Network.mk [Layer.mk ⟨[[1]]⟩ ⟨[1]⟩])
    (by norm_num [Network.update, Matrix.scalar_multiply, Matrix.add,
      Vector.scalar_multiply, Vector.add])

/-- Claim C2 as stated is false on the code: with old weights `[[0]]`,
old biases `[0]`, gradient `[[1]]`, delta `[1]` and learning rate 1,
`Network::update` produces weights `[[1]]` and biases `[1]`, while
`old - learning_rate * gradient` as the spec states it gives `[[-1]]`
and `[-1]`. -/
theorem update_spec_cex :
    (Network.mk [Layer.mk ⟨[[0]]⟩ ⟨[0]⟩]).update ⟨[[1]]⟩ ⟨[1]⟩ 1 =
      some (Network.mk [Layer.mk ⟨[[1]]⟩ ⟨[1]⟩]) ∧
    specUpdateWeights ⟨[[0]]⟩ ⟨[[1]]⟩ 1 = ⟨[[-1]]⟩ ∧
    specUpdateBiases ⟨[0]⟩ ⟨[1]⟩ 1 = ⟨[-1]⟩ ∧
    (⟨[[(1:ℚ)]]⟩ : Matrix) ≠ ⟨[[-1]]⟩ ∧ (⟨[(1:ℚ)]⟩ : Vector) ≠ ⟨[-1]⟩ := by
  refine ⟨?_, ?_, ?_, ?_, ?_⟩
  · norm_num [Network.update, Matrix.scalar_multiply, Matrix.add,
      Vector.scalar_multiply, Vector.add]
  · norm_num [specUpdateWeights]
  · norm_num [specUpdateBiases]
  · intro hcontra
    have : (1:ℚ) = -1 := by
      have := congrArg (fun m : Matrix => (m.data.getD 0 []).getD 0 0) hcontra
      simpa using this
    norm_num at this
  · intro hcontra
    have : (1:ℚ) = -1 := by
      have := congrArg (fun v : Vector => v.elements.getD 0 0) hcontra
      simpa using this
    norm_num at this

/-- Claim C6 (confirmed): `Network::update` only writes `layers[0]`;
every layer at index 1 and above, and the layer count, are unchanged. -/
theorem update_frame (net : Network) (wg : Matrix) (dv : Vector) (lr : ℚ)
    (net2 : Network) (hlen : 2 ≤ net.layers.length)
    (h : net.update wg dv lr = some net2) :
    net2.layers.length = net.layers.length ∧
    ∀ i, 1 ≤ i → net2.layers.get? i = net.layers.get? i := by
  rw [update_eq] at h
  cases hl0 : net.layers.get? 0 with
  | none => rw [hl0, Option.none_bind] at h; cases h
  | some l0 =>
  rw [hl0, Option.some_bind] at h
  cases hw : (wg.scalar_multiply lr).add l0.weights with
  | none => rw [hw, Option.none_bind] at h; cases h
  | some newW =>
  rw [hw, Option.some_bind] at h
  cases hb : (dv.scalar_multiply lr).add l0.biases with
  | none => rw [hb, Option.none_bind] at h; cases h
  | some newB =>
  rw [hb, Option.some_bind, Option.some.injEq] at h
  subst h
  refine ⟨by simp, ?_⟩
  intro i hi
  exact get?_set_ne ⟨newW, newB⟩ net.layers 0 i (by omega)

/-- Claim C4 (confirmed): whenever `Network::backward` returns a pair,
that pair is the elementwise sum of the per-layer weight-gradient
matrices and the elementwise sum of the per-layer delta vectors that the
backward pass pushed — one matrix and one delta per layer (`backwardParts`
lists them in push order: the output layer first, then the reverse loop
over the remaining layers). -/
theorem backward_aggregates (net : Network) (input target : Vector) (W : Matrix)
    (D : Vector) (h : net.backward input target = some (W, D)) :
    ∃ deltas wgs l0,
      net.backwardParts input target = some (deltas, wgs) ∧
      net.layers.get? 0 = some l0 ∧
      deltas.length = net.layers.length ∧
      wgs.length = net.layers.length ∧
      W.data.map List.length =
        List.replicate l0.weights.col_count l0.weights.row_count ∧
      (∀ i j, i < l0.weights.col_count → j < l0.weights.row_count →
        W.entry i j = (wgs.map (fun g => g.entry i j)).sum) ∧
      D.elements.length = l0.weights.row_count ∧
      (∀ k, k < l0.weights.row_count →
        D.elements.getD k 0 = (deltas.map (fun v => v.elements.getD k 0)).sum) := by
  rw [backward_eq] at h
  simp only [Option.bind_eq_some, Option.some.injEq] at h
  obtain ⟨p, hparts, l0, hl0, totalW, hfW, totalD, hfD, hfin⟩ := h
  have hWeq : totalW = W := congrArg Prod.fst hfin
  have hDeq : totalD = D := congrArg Prod.snd hfin
  subst hWeq; subst hDeq
  have hparts' := hparts
  rw [backwardParts_eq] at hparts
  simp only [Option.bind_eq_some, Option.some.injEq] at hparts
  obtain ⟨t, hstage, penult, hpen, wg0, hwg0, steps, hsteps, hfinp⟩ := hparts
  obtain ⟨outs, e0, d0⟩ := t
  have houts := outputStage_some_outputs hstage
  have hOlen : outs.length = net.layers.length + 1 :=
    forwardOutputs_length net.layers input outs houts
  have hge2 : 2 ≤ outs.length := by
    by_contra hlt
    rw [if_neg hlt] at hpen
    cases hpen
  have hn1 : 1 ≤ net.layers.length := by omega
  have hsl := backSteps_length net.layers outs (net.layers.length - 1) d0 steps hsteps
  subst hfinp
  have c0 := l0.weights.col_count
  have hzdataLen : (Matrix.zeros l0.weights.col_count l0.weights.row_count).data.length =
      l0.weights.col_count := by simp [Matrix.zeros]
  have hzmap : (Matrix.zeros l0.weights.col_count l0.weights.row_count).data.map
      List.length = List.replicate l0.weights.col_count l0.weights.row_count := by
    simp [Matrix.zeros]
  have hzrow : ∀ i, i < l0.weights.col_count →
      ((Matrix.zeros l0.weights.col_count l0.weights.row_count).data.getD i []).length =
        l0.weights.row_count := by
    intro i hi
    rw [Matrix.zeros]
    show ((List.replicate l0.weights.col_count
        (List.replicate l0.weights.row_count (0:ℚ))).getD i []).length = _
    rw [getD_replicate' _ [] _ i hi]
    simp
  have hzentry : ∀ i j, i < l0.weights.col_count → j < l0.weights.row_count →
      (Matrix.zeros l0.weights.col_count l0.weights.row_count).entry i j = 0 := by
    intro i j hi hj
    rw [Matrix.entry, Matrix.zeros]
    show ((List.replicate l0.weights.col_count
        (List.replicate l0.weights.row_count (0:ℚ))).getD i []).getD j 0 = _
    rw [getD_replicate' _ [] _ i hi, getD_replicate' _ 0 _ j hj]
  obtain ⟨hWshape, hWpt⟩ := foldlM_matrix_add (wg0 :: steps.map Prod.fst) _ _ hfW
  obtain ⟨hDlen, hDpt⟩ := foldlM_vector_add (d0 :: steps.map Prod.snd) _ _ hfD
  refine ⟨d0 :: steps.map Prod.snd, wg0 :: steps.map Prod.fst, l0, hparts', hl0, ?_, ?_,
    ?_, ?_, ?_, ?_⟩
  · simp only [List.length_cons, List.length_map]
    omega
  · simp only [List.length_cons, List.length_map]
    omega
  · rw [hWshape, hzmap]
  · intro i j hi hj
    rw [hWpt i j (by omega) (by rw [hzrow i hi]; exact hj)]
    rw [hzentry i j hi hj, zero_add]
  · rw [hDlen]
    simp [Vector.zeros]
  · intro k hk
    have hzel : (Vector.zeros l0.weights.row_count).elements.length =
        l0.weights.row_count := by simp [Vector.zeros]
    rw [hDpt k (by omega)]
    have : (Vector.zeros l0.weights.row_count).elements.getD k 0 = 0 := by
      rw [Vector.zeros]
      exact getD_replicate' 0 0 _ k hk
    rw [this, zero_add]

/-- Witness for C4 at a concrete one-layer network where `backward`
succeeds (weights `[[1]]`, biases `[0]`, input `[2]`, target `[0]`). -/
theorem backward_aggregates_witness :
    ∃ deltas wgs l0,
      (Network.mk [Layer.mk ⟨[[1]]⟩ ⟨[0]⟩]).backwardParts ⟨[2]⟩ ⟨[0]⟩ =
        some (deltas, wgs) ∧
      (Network.mk [Layer.mk ⟨[[1]]⟩ ⟨[0]⟩]).layers.get? 0 = some l0 ∧
      deltas.length = (Network.mk [Layer.mk ⟨[[1]]⟩ ⟨[0]⟩]).layers.length ∧
      wgs.length = (Network.mk [Layer.mk ⟨[[1]]⟩ ⟨[0]⟩]).layers.length ∧
      (⟨[[(-25:ℚ)/108]]⟩ : Matrix).data.map List.length =
        List.replicate l0.weights.col_count l0.weights.row_count ∧
      (∀ i j, i < l0.weights.col_count → j < l0.weights.row_count →
        (⟨[[(-25:ℚ)/108]]⟩ : Matrix).entry i j =
          (wgs.map (fun g => g.entry i j)).sum) ∧
      (⟨[(-25:ℚ)/216]⟩ : Vector).elements.length = l0.weights.row_count ∧
      (∀ k, k < l0.weights.row_count →
        (⟨[(-25:ℚ)/216]⟩ : Vector).elements.getD k 0 =
          (deltas.map (fun v => v.elements.getD k 0)).sum) :=
  backward_aggregates (Network.mk [Layer.mk ⟨[[1]]⟩ ⟨[0]⟩]) ⟨[2]⟩ ⟨[0]⟩
    ⟨[[(-25:ℚ)/108]]⟩ ⟨[(-25:ℚ)/216]⟩
    (by norm_num [backward_eq, backwardParts_eq, Network.outputStage, forwardOutputs,
      Layer.forward, Vector.len, Matrix.col_count, Matrix.row_count, dot, Vector.add,
      Vector.subtract, Vector.ones, Vector.elementwise_multiply, Network.delta,
      Network.weight_gradients, backSteps, Matrix.zeros, Matrix.add, Vector.zeros,
      Vector.get_element, Matrix.set_element, List.foldlM, List.range_succ,
      activation_two])

/-- Claim C7 (confirmed): on a non-empty network, for an input at least
as long as the last layer's weight column count and a gradient at least
as long as its row count, `Network::weight_gradients` returns the outer
product matrix with entry `(i, j)` equal to `input[i] * gradient[j]` for
every `i` below the column count and `j` below the row count. -/
theorem network_weight_gradients_outer (net : Network) (last : Layer)
    (input output gradient : Vector)
    (hlast : net.layers.getLast? = some last)
    (hc : last.weights.col_count ≤ input.len)
    (hr : last.weights.row_count ≤ gradient.len) :
    ∃ M, net.weight_gradients input output gradient = some M ∧
      M.data = (List.range last.weights.col_count).map (fun i =>
        (List.range last.weights.row_count).map (fun j =>
          input.elements.getD i 0 * gradient.elements.getD j 0)) ∧
      ∀ i j, i < last.weights.col_count → j < last.weights.row_count →
        M.entry i j = input.elements.getD i 0 * gradient.elements.getD j 0 := by
  have hfold := wg_outer_fold input gradient last.weights.row_count
    last.weights.col_count hc hr last.weights.col_count (le_refl _)
  have hdata : (List.range last.weights.col_count).map (fun i =>
      if i < last.weights.col_count then (List.range last.weights.row_count).map (fun j =>
        input.elements.getD i 0 * gradient.elements.getD j 0)
      else List.replicate last.weights.row_count 0) =
      (List.range last.weights.col_count).map (fun i =>
        (List.range last.weights.row_count).map (fun j =>
          input.elements.getD i 0 * gradient.elements.getD j 0)) := by
    apply List.map_congr_left
    intro i hi
    rw [if_pos (List.mem_range.mp hi)]
  refine ⟨⟨(List.range last.weights.col_count).map (fun i =>
      (List.range last.weights.row_count).map (fun j =>
        input.elements.getD i 0 * gradient.elements.getD j 0))⟩, ?_, rfl, ?_⟩
  · calc net.weight_gradients input output gradient
        = (List.range last.weights.col_count).foldlM
            (fun (m : Matrix) (i : Nat) => (List.range last.weights.row_count).foldlM
              (fun (m2 : Matrix) (j : Nat) => (input.get_element i).bind (fun a =>
                (gradient.get_element j).bind (fun b => m2.set_element i j (a * b)))) m)
            (Matrix.zeros last.weights.col_count last.weights.row_count) := by
          rw [weight_gradients_eq, hlast]
      _ = some ⟨(List.range last.weights.col_count).map (fun i =>
            (List.range last.weights.row_count).map (fun j =>
              input.elements.getD i 0 * gradient.elements.getD j 0))⟩ := by
          rw [hfold, hdata]
  · intro i j hi hj
    rw [Matrix.entry]
    show (((List.range last.weights.col_count).map _).getD i []).getD j 0 = _
    rw [getD_map_range _ [] _ i hi]
    rw [getD_map_range _ 0 _ j hj]

/-- Witness for C7 at a concrete one-layer network (last layer weights
`[[1]]`, so one column and one row; input `[2]`, gradient `[3]`; the
outer product is `[[6]]`). -/
theorem network_weight_gradients_outer_witness :
    ∃ M, (Network.mk [Layer.mk ⟨[[1]]⟩ ⟨[0]⟩]).weight_gradients ⟨[2]⟩ ⟨[]⟩ ⟨[3]⟩ =
        some M ∧
      M.data = (List.range (Layer.mk ⟨[[1]]⟩ ⟨[0]⟩).weights.col_count).map (fun i =>
        (List.range (Layer.mk ⟨[[1]]⟩ ⟨[0]⟩).weights.row_count).map (fun j =>
          (Vector.mk [(2:ℚ)]).elements.getD i 0 *
            (Vector.mk [(3:ℚ)]).elements.getD j 0)) ∧
      ∀ i j, i < (Layer.mk ⟨[[1]]⟩ ⟨[0]⟩).weights.col_count →
          j < (Layer.mk ⟨[[1]]⟩ ⟨[0]⟩).weights.row_count →
        M.entry i j = (Vector.mk [(2:ℚ)]).elements.getD i 0 *
          (Vector.mk [(3:ℚ)]).elements.getD j 0 :=
  network_weight_gradients_outer (Network.mk [Layer.mk ⟨[[1]]⟩ ⟨[0]⟩])
    (Layer.mk ⟨[[1]]⟩ ⟨[0]⟩) ⟨[2]⟩ ⟨[]⟩ ⟨[3]⟩ (by simp)
    (by norm_num [Matrix.col_count, Vector.len])
    (by norm_num [Matrix.row_count, Vector.len])

/-- Claim C3 (code bug, evaluated): serializing a two-layer network with
`Network::to_string` and parsing the result with `Network::from_str`
yields THREE layers, not two — `split("Layer")` produces a leading empty
fragment before the first delimiter, which is parsed (without any
validation) into an extra garbage layer.  The original two layers'
parameter values survive verbatim in positions 1 and 2. -/
theorem roundtrip_extra_layer_eval :
    (Network.from_str ((Network.mk [Layer.mk ⟨[[1]]⟩ ⟨[0]⟩,
        Layer.mk ⟨[[2]]⟩ ⟨[3]⟩]).to_string)).layers.length = 3 ∧
    (Network.mk [Layer.mk ⟨[[1]]⟩ ⟨[0]⟩, Layer.mk ⟨[[2]]⟩ ⟨[3]⟩]).layers.length = 2 ∧
    (Network.from_str ((Network.mk [Layer.mk ⟨[[1]]⟩ ⟨[0]⟩,
        Layer.mk ⟨[[2]]⟩ ⟨[3]⟩]).to_string)) =
      Network.mk [Layer.mk ⟨[]⟩ ⟨[]⟩, Layer.mk ⟨[[1]]⟩ ⟨[0]⟩,
        Layer.mk ⟨[[2]]⟩ ⟨[3]⟩] ∧
    (3 : Nat) ≠ 2 := by
  refine ⟨by decide, rfl, ?_, by decide⟩
  simp +decide [Network.from_str, Network.to_string, Layer.to_str, Layer.from_str,
    layerTokens, layerTok, splitOnL, splitOnLF, tokenize, tokenizeAux, decLayer,
    decNat, decNatL, decRat, decInt, encNat, encNatLF, encRat, encInt, digitChar,
    Matrix.col_count, List.range_succ]

/-- Witness for C6 at a concrete two-layer network: only the first layer
changes. -/
theorem update_frame_witness :
    (Network.mk [Layer.mk ⟨[[1]]⟩ ⟨[1]⟩, Layer.mk ⟨[[5]]⟩ ⟨[7]⟩]).layers.length =
      (Network.mk [Layer.mk ⟨[[0]]⟩ ⟨[0]⟩, Layer.mk ⟨[[5]]⟩ ⟨[7]⟩]).layers.length ∧
    ∀ i, 1 ≤ i →
      (Network.mk [Layer.mk ⟨[[1]]⟩ ⟨[1]⟩, Layer.mk ⟨[[5]]⟩ ⟨[7]⟩]).layers.get? i =
        (Network.mk [Layer.mk ⟨[[0]]⟩ ⟨[0]⟩, Layer.mk ⟨[[5]]⟩ ⟨[7]⟩]).layers.get? i :=
  update_frame (Network.mk [Layer.mk ⟨[[0]]⟩ ⟨[0]⟩, Layer.mk ⟨[[5]]⟩ ⟨[7]⟩])
    ⟨[[1]]⟩ ⟨[1]⟩ 1 (Network.mk [Layer.mk ⟨[[1]]⟩ ⟨[1]⟩, Layer.mk ⟨[[5]]⟩ ⟨[7]⟩])
    (by norm_num)
    (by norm_num [Network.update, Matrix.scalar_multiply, Matrix.add,
      Vector.scalar_multiply, Vector.add])

end KAN
